import Mathlib

/-!
Verification of the api_dto library (a DTO decorator: nullable-field
normalization, dict/JSON serialization, enum coercion hooks, and a
recursive sensitive-field audit).

The embedding follows src/api_dto/api_dto.py and
src/api_dto/sensitive_fields.py.  The external collaborators
(dataclasses.asdict, dacite.from_dict, the JSON codec) are modelled from
the spec where noted; everything else is translated from the source.
-/

namespace ApiDto

/-- Scalar (JSON-representable) primitive values. -/
inductive Prim where
  | int (n : Int)
  | str (s : String)
  | bool (b : Bool)
deriving DecidableEq, BEq

/-- Declared field types, as the decorator sees them in a class's
type declarations: scalars, enumeration classes (a list of members,
each a name with its underlying value), nested DTO classes (their own
schema), `list[T]`, `dict[str, T]`, `set[T]`, and the nullable wrapper
`T | None` / `Optional[T]`. -/
inductive FType where
  | scalar
  | enumT (members : List (String × Prim))
  | dto (schema : List (String × FType))
  | seq (t : FType)
  | mapT (t : FType)
  | setT (t : FType)
  | nullable (t : FType)

/-- Runtime values held by DTO instances: primitives, `None`, DTO
instances (field lists), lists, and string-keyed dicts. -/
inductive Value where
  | prim (p : Prim)
  | vnone
  | obj (fields : List (String × Value))
  | vlist (vs : List Value)
  | vdict (kvs : List (String × Value))

/-- Serialized mappings: the plain nested dict/JSON form produced by
serialization (primitives, null, string-keyed objects, arrays). -/
inductive JValue where
  | prim (p : Prim)
  | null
  | jobj (kvs : List (String × JValue))
  | jarr (vs : List JValue)

mutual

/-- Modelled from the spec: serialization of an instance to a plain
nested mapping (`dataclasses.asdict`, an external collaborator; spec
section 4.2: nested DTOs expand to their own mapping form,
sequences and mappings expand element-wise, `None` becomes null). -/
def serialize : Value → JValue
  | .prim p => .prim p
  | .vnone => .null
  | .obj fs => .jobj (serializeFields fs)
  | .vlist vs => .jarr (serializeList vs)
  | .vdict kvs => .jobj (serializeFields kvs)

/-- Serialization of a field list, preserving order and names. -/
def serializeFields : List (String × Value) → List (String × JValue)
  | [] => []
  | (n, v) :: fs => (n, serialize v) :: serializeFields fs

/-- Serialization of the elements of a list value. -/
def serializeList : List Value → List JValue
  | [] => []
  | v :: vs => serialize v :: serializeList vs

end

mutual

/-- Conformance of a runtime value to a declared type: the value is a
possible field value of that (possibly normalized) declared type. -/
def conforms : Value → FType → Bool
  | .vnone, .nullable _ => true
  | v, .nullable t => conforms v t
  | .prim _, .scalar => true
  | .obj fs, .dto s => conformsFields fs s
  | .vlist vs, .seq t => conformsList vs t
  | .vdict kvs, .mapT t => conformsEntries kvs t
  | _, _ => false
termination_by v t => (sizeOf v, sizeOf t)

/-- Conformance of a DTO instance's fields to a schema: same names in
the same order, each value conforming to the declared type. -/
def conformsFields : List (String × Value) → List (String × FType) → Bool
  | [], [] => true
  | (n, v) :: fs, (m, t) :: s => n == m && conforms v t && conformsFields fs s
  | _, _ => false
termination_by fs s => (sizeOf fs, sizeOf s)

/-- Conformance of list elements to an element type. -/
def conformsList : List Value → FType → Bool
  | [], _ => true
  | v :: vs, t => conforms v t && conformsList vs t
termination_by vs t => (sizeOf vs, sizeOf t)

/-- Conformance of dict entries to a value type. -/
def conformsEntries : List (String × Value) → FType → Bool
  | [], _ => true
  | (_, v) :: kvs, t => conforms v t && conformsEntries kvs t
termination_by kvs t => (sizeOf kvs, sizeOf t)

end

/-- Distinctness of the field names of a schema. -/
def nodupKeysF : List (String × FType) → Bool
  | [] => true
  | (n, _) :: s => !(s.map Prod.fst).contains n && nodupKeysF s

mutual

/-- Well-formedness of a declared type: every DTO schema reachable from
it has pairwise-distinct field names (as Python class declarations do). -/
def wellFormed : FType → Bool
  | .scalar => true
  | .enumT _ => true
  | .dto s => nodupKeysF s && wellFormedFields s
  | .seq t => wellFormed t
  | .mapT t => wellFormed t
  | .setT t => wellFormed t
  | .nullable t => wellFormed t

/-- Well-formedness of each declared type in a schema. -/
def wellFormedFields : List (String × FType) → Bool
  | [] => true
  | (_, t) :: s => wellFormed t && wellFormedFields s

end

mutual

/-- Absence of enumeration types anywhere in a declared type. -/
def noEnum : FType → Bool
  | .scalar => true
  | .enumT _ => false
  | .dto s => noEnumFields s
  | .seq t => noEnum t
  | .mapT t => noEnum t
  | .setT t => noEnum t
  | .nullable t => noEnum t

/-- Absence of enumeration types in a schema. -/
def noEnumFields : List (String × FType) → Bool
  | [] => true
  | (_, t) :: s => noEnum t && noEnumFields s

end

/-- Lookup of a key in a serialized mapping (Python dict lookup). -/
def lookupKey (n : String) : List (String × JValue) → Option JValue
  | [] => none
  | (m, j) :: kvs => if m = n then some j else lookupKey n kvs

mutual

/-- Modelled from the spec: structural reconstruction of an instance
from a mapping (`dacite.from_dict`, an external collaborator; spec
sections 4.2 and 6: each field is looked up by name and rebuilt
following its declared type; nested DTOs, sequences and mappings are
reconstructed recursively; a structural mismatch fails).  Enumeration
types get no coercion here: the type-hook registration in the source's
from_dict is modelled separately (see enumHookKeys). -/
def deserialize : FType → JValue → Option Value
  | .nullable _, .null => some .vnone
  | .nullable t, j => deserialize t j
  | .scalar, .prim p => some (.prim p)
  | .dto s, .jobj kvs => (deserializeFields s kvs).map Value.obj
  | .seq t, .jarr js => (deserializeList t js).map Value.vlist
  | .mapT t, .jobj kvs => (deserializeKVs t kvs).map Value.vdict
  | _, _ => none
termination_by t j => (sizeOf t, sizeOf j)

/-- Reconstruction of a DTO's fields: each schema field is looked up in
the mapping and rebuilt at its declared type. -/
def deserializeFields : List (String × FType) → List (String × JValue) → Option (List (String × Value))
  | [], _ => some []
  | (n, t) :: s, kvs =>
    match lookupKey n kvs with
    | none => none
    | some j =>
      match deserialize t j with
      | none => none
      | some v => (deserializeFields s kvs).map (fun vs => (n, v) :: vs)
termination_by s kvs => (sizeOf s, sizeOf kvs)

/-- Reconstruction of the elements of a sequence. -/
def deserializeList : FType → List JValue → Option (List Value)
  | _, [] => some []
  | t, j :: js =>
    match deserialize t j with
    | none => none
    | some v => (deserializeList t js).map (fun vs => v :: vs)
termination_by t js => (sizeOf t, sizeOf js)

/-- Reconstruction of the entries of a mapping-typed field. -/
def deserializeKVs : FType → List (String × JValue) → Option (List (String × Value))
  | _, [] => some []
  | t, (n, j) :: kvs =>
    match deserialize t j with
    | none => none
    | some v => (deserializeKVs t kvs).map (fun vs => (n, v) :: vs)
termination_by t kvs => (sizeOf t, sizeOf kvs)

end

/-! ## Field normalization (make_nullable and its helper) -/

/-- One class field as the decorator sees it: its name, its declared
type, and its existing default value if the class has one. -/
abbrev FieldEntry := String × FType × Option Value

/-- Translation of `_is_optional`: true exactly when the declared type
is a union containing `None` (`T | None`, `Optional[T]`). -/
def isOptionalTy : FType → Bool
  | .nullable _ => true
  | _ => false

/-- Whether `get_origin(field_type) or field_type` is the `set` type:
true for `set`, `set[T]`, `Set[T]`.  A nullable wrapper has origin
`Union`, a list has origin `list`, so neither ever satisfies this. -/
def originIsSet : FType → Bool
  | .setT _ => true
  | _ => false

/-- The nullable rewrite of `_make_nullable`: a type that is not
already optional becomes `ty | None`. -/
def mkOptional (ty : FType) : FType :=
  if isOptionalTy ty then ty else .nullable ty

/-- The default `_make_nullable` assigns to a field with no existing
default: with `auto_collections`, an empty list or empty dict when the
origin of the declared type is `list` or `dict`, else `None`. -/
def defaultFor (ac : Bool) (ty : FType) : Value :=
  if ac then
    match ty with
    | .seq _ => .vlist []
    | .mapT _ => .vdict []
    | _ => .vnone
  else .vnone

/-- Translation of one iteration of the loop in `_make_nullable`:
reject a field whose origin is `set` (the raised error names the
field), make a non-optional declared type optional, and give a field
with no existing default the automatic default computed from the
origin of its declared type (the original declared type, before the
nullable rewrite). -/
def normalizeField (ac : Bool) (e : FieldEntry) : Except String FieldEntry :=
  let (name, ty, dflt) := e
  if originIsSet ty then .error name
  else .ok (name, mkOptional ty, some (dflt.getD (defaultFor ac ty)))

/-- Translation of `_make_nullable`: process every field in
declaration order; the first `set`-typed field aborts decoration with
an error naming it. -/
def normalizeFields (ac : Bool) : List FieldEntry → Except String (List FieldEntry)
  | [] => .ok []
  | e :: es =>
    match normalizeField ac e with
    | .error msg => .error msg
    | .ok e' =>
      match normalizeFields ac es with
      | .error msg => .error msg
      | .ok es' => .ok (e' :: es')

/-! ## The decorator (api_dto) -/

/-- The observable state of a class under decoration: its fields
(with defaults) and the marker attributes and dataclass status the
decorator reads and writes. -/
structure ClassState where
  fields : List FieldEntry
  isApiDto : Bool
  nullableAdded : Bool
  serializableAdded : Bool
  isDataclass : Bool

/-- Translation of the `api_dto` decorator's `wrap`: if the class
already carries the `_is_api_dto` marker nothing happens; otherwise any
dataclass methods are removed, the fields are normalized (when
`optional` is set and the `_nullable_added` marker is absent, possibly
failing on a `set` field), the dataclass machinery is applied, the
serialization methods are attached (when `serializable` is set and the
`_serializable_added` marker is absent) and the marker is set. -/
def api_dto (opt ser ac : Bool) (c : ClassState) : Except String ClassState :=
  if c.isApiDto then .ok c
  else
    let c1 := if c.isDataclass then { c with isDataclass := false } else c
    let step : Except String ClassState :=
      if opt && !c1.nullableAdded then
        (normalizeFields ac c1.fields).map
          (fun fs => { c1 with fields := fs, nullableAdded := true })
      else .ok c1
    step.map (fun c2 =>
      let c3 := { c2 with isDataclass := true }
      let c4 := if ser && !c3.serializableAdded then { c3 with serializableAdded := true } else c3
      { c4 with isApiDto := true })

/-! ## String helpers -/

/-- Python's `str.lower`, modelled character-wise (the keys involved
are ASCII, where `Char.toLower` agrees with Python). -/
def lowerStr (s : String) : String := String.mk (s.data.map Char.toLower)

/-- Python's `str.endswith` for a single suffix. -/
def endsWithStr (s pat : String) : Bool := pat.data.isSuffixOf s.data

/-! ## Enum coercion: from_dict type-hook registration and the hook -/

/-- Whether a declared type is a bare enumeration class, i.e. satisfies
`isinstance(t, type) and issubclass(t, Enum)`.  A union such as
`E | None` is a `types.UnionType`, not a class, so it never does. -/
def isPlainEnumTy : FType → Bool
  | .enumT _ => true
  | _ => false

/-- Translation of the dict comprehension in `_from_dict`: the declared
types for which an enum type hook is registered with dacite — exactly
the declared field types that are bare enumeration classes. -/
def enumHookKeys (fs : List FieldEntry) : List FType :=
  (fs.map (fun e => e.2.1)).filter isPlainEnumTy

/-- Translation of `_enum_hook`: `None` passes through; otherwise try
direct construction by underlying value (the first member whose value
equals the given one); otherwise, for a string, the first member whose
name matches case-insensitively; otherwise fail. -/
def enum_hook (members : List (String × Prim)) (j : JValue) : Except String (Option (String × Prim)) :=
  match j with
  | .null => .ok none
  | .prim p =>
    match members.find? (fun m => m.2 == p) with
    | some m => .ok (some m)
    | none =>
      match p with
      | .str s =>
        match members.find? (fun m => lowerStr m.1 == lowerStr s) with
        | some m => .ok (some m)
        | none => .error "Cannot map value to enum"
      | _ => .error "Cannot map value to enum"
  | _ => .error "Cannot map value to enum"

/-! ## Sensitive-field configuration (sensitive_fields.py) -/

/-- Audit log modes. -/
inductive LogMode where
  | warn
  | strict
deriving DecidableEq

/-- The observable state of the `SensitiveFields` singleton: the enable
flag, the log mode, the exact sensitive names and the sensitive
suffixes. -/
structure SFConfig where
  enabled : Bool
  logMode : LogMode
  fields : List String
  suffixes : List String

/-- The class-level defaults of `SensitiveFields`. -/
def defaultConfig : SFConfig :=
  { enabled := true
    logMode := .warn
    fields := ["api_key", "session_id", "password", "token"]
    suffixes := ["_id", "_key"] }

/-- Merge of two name lists; the source computes
`tuple(set(old) | set(new))`, whose order is unspecified, so the model
fixes one deduplicated order. -/
def mergeNames (old new : List String) : List String :=
  (old ++ new).eraseDups

/-- Translation of the `initialize` method of `SensitiveFields`: the
enable flag and log mode are overwritten unconditionally with the
passed (or default) values; the name and suffix lists are replaced or
merged only when a non-empty argument is passed (Python truthiness: an
empty tuple is skipped exactly like an absent argument). -/
def initConfig (c : SFConfig) (enabled : Bool) (fieldsArg : Option (List String))
    (suffixesArg : Option (List String)) (replace : Bool) (logMode : LogMode) : SFConfig :=
  let fs :=
    match fieldsArg with
    | none => c.fields
    | some l => if l.isEmpty then c.fields else (if replace then l else mergeNames c.fields l)
  let sufs :=
    match suffixesArg with
    | none => c.suffixes
    | some l => if l.isEmpty then c.suffixes else (if replace then l else mergeNames c.suffixes l)
  { enabled := enabled, logMode := logMode, fields := fs, suffixes := sufs }

/-- Translation of the standalone `is_sensitive_field` predicate: when
the configuration is disabled it returns `None` (modelled as `none`);
otherwise `True` when the value as given is in the sensitive names or
ends (case as given) with a sensitive suffix, else `False`.  Unlike the
audit in `_warn_sensitive_fields`, it does not lower-case its input. -/
def is_sensitive_field (c : SFConfig) (value : String) : Option Bool :=
  if !c.enabled then none
  else if c.fields.contains value || c.suffixes.any (fun suf => endsWithStr value suf) then some true
  else some false

/-! ## The sensitive-field audit and to_dict -/

/-- Values as they appear in an audited mapping: scalars, `None`,
nested dicts, lists, and objects exposing `to_dict` (nested DTO
instances, carried with their type name and their serialized form). -/
inductive AValue where
  | aprim (p : Prim)
  | anull
  | adict (entries : List (String × AValue))
  | alist (items : List AValue)
  | adto (tname : String) (payload : List (String × AValue))

/-- The per-key check of `_warn_sensitive_fields`: the lower-cased key
is matched exactly against the sensitive names and by suffix against
the sensitive suffixes (both lists as given). -/
def sensitiveMatch (c : SFConfig) (key : String) : Bool :=
  c.fields.contains (lowerStr key) || c.suffixes.any (fun suf => endsWithStr (lowerStr key) suf)

/-- The audit's action on one key: on a sensitive match, warn mode
records a warning identifying `owner.key` and continues; strict mode
logs and raises (modelled as an error carrying the same dotted name). -/
def auditKey (c : SFConfig) (owner key : String) : Except String (List String) :=
  if sensitiveMatch c key then
    match c.logMode with
    | .warn => .ok [owner ++ "." ++ key]
    | .strict => .error (owner ++ "." ++ key)
  else .ok []

mutual

/-- Translation of `_warn_sensitive_fields` over a mapping: a no-op
when disabled; otherwise each key is checked (possibly raising in
strict mode), nested dicts are audited under the same owner label, and
list elements are audited via `auditItems`.  Warnings accumulate in
traversal order; an error aborts the whole audit. -/
def auditEntries (c : SFConfig) (owner : String) (data : List (String × AValue)) :
    Except String (List String) :=
  if c.enabled then
    match data with
    | [] => .ok []
    | (key, v) :: rest =>
      match auditKey c owner key with
      | .error msg => .error msg
      | .ok w1 =>
        match auditValue c owner v with
        | .error msg => .error msg
        | .ok w2 =>
          match auditEntries c owner rest with
          | .error msg => .error msg
          | .ok w3 => .ok (w1 ++ w2 ++ w3)
  else .ok []
termination_by sizeOf data

/-- The audit of one value: dicts recurse with the same owner label,
lists recurse over their elements, and everything else is ignored. -/
def auditValue (c : SFConfig) (owner : String) (v : AValue) : Except String (List String) :=
  match v with
  | .adict entries => auditEntries c owner entries
  | .alist items => auditItems c owner items
  | _ => .ok []
termination_by sizeOf v

/-- The audit of the elements of a list: an element exposing `to_dict`
is serialized (which itself audits it under its own type name) and then
audited again under its own type name; a plain dict element is audited
under the enclosing owner label; any other element is ignored. -/
def auditItems (c : SFConfig) (owner : String) (items : List AValue) :
    Except String (List String) :=
  match items with
  | [] => .ok []
  | .adto tname payload :: rest =>
    match auditEntries c tname payload with
    | .error msg => .error msg
    | .ok wInner =>
      match auditEntries c tname payload with
      | .error msg => .error msg
      | .ok wOuter =>
        match auditItems c owner rest with
        | .error msg => .error msg
        | .ok wRest => .ok (wInner ++ wOuter ++ wRest)
  | .adict entries :: rest =>
    match auditEntries c owner entries with
    | .error msg => .error msg
    | .ok w =>
      match auditItems c owner rest with
      | .error msg => .error msg
      | .ok wRest => .ok (w ++ wRest)
  | _ :: rest => auditItems c owner rest
termination_by sizeOf items

end

/-- Translation of `_to_dict`: build the serialized mapping, run the
audit over it (whose warnings are logged; a strict-mode hit raises and
aborts), and return the mapping unchanged.  The result carries the
warnings the audit logged alongside the returned mapping. -/
def to_dict (c : SFConfig) (owner : String) (data : List (String × AValue)) :
    Except String (List String × List (String × AValue)) :=
  (auditEntries c owner data).map (fun ws => (ws, data))

/-! ## Concrete classes and configurations used as witnesses -/

/-- A one-field class `x: int` before decoration. -/
def demoClass : ClassState :=
  { fields := [("x", .scalar, none)]
    isApiDto := false, nullableAdded := false, serializableAdded := false, isDataclass := false }

/-- The result of decorating `demoClass`. -/
def demoClassN : ClassState :=
  { fields := [("x", .nullable .scalar, some .vnone)]
    isApiDto := true, nullableAdded := true, serializableAdded := true, isDataclass := true }

/-- A class whose field is declared `Optional[set[int]]` (a set inside
a nullable wrapper). -/
def setClass : ClassState :=
  { fields := [("items", .nullable (.setT .scalar), none)]
    isApiDto := false, nullableAdded := false, serializableAdded := false, isDataclass := false }

/-- The result of decorating `setClass` — decoration succeeds. -/
def setClassN : ClassState :=
  { fields := [("items", .nullable (.setT .scalar), some .vnone)]
    isApiDto := true, nullableAdded := true, serializableAdded := true, isDataclass := true }

/-- A class whose field is declared directly as `set[int]`. -/
def directSetClass : ClassState :=
  { fields := [("items", .setT .scalar, none)]
    isApiDto := false, nullableAdded := false, serializableAdded := false, isDataclass := false }

/-- A class with one field of a bare enumeration type (`f: Color` with
`Color.RED = 1`). -/
def colorClass : ClassState :=
  { fields := [("f", .enumT [("RED", .int 1)], none)]
    isApiDto := false, nullableAdded := false, serializableAdded := false, isDataclass := false }

/-- The result of decorating `colorClass`: the declared type of `f` has
become the union `Color | None`. -/
def colorClassN : ClassState :=
  { fields := [("f", .nullable (.enumT [("RED", .int 1)]), some .vnone)]
    isApiDto := true, nullableAdded := true, serializableAdded := true, isDataclass := true }

/-- The default configuration switched to strict mode. -/
def strictConfig : SFConfig :=
  { defaultConfig with logMode := .strict }

/-- A class with fields `tags: list[str]` and `extra: Optional[list[str]]`,
neither with a default. -/
def listClass : ClassState :=
  { fields := [("tags", .seq .scalar, none), ("extra", .nullable (.seq .scalar), none)]
    isApiDto := false, nullableAdded := false, serializableAdded := false, isDataclass := false }

/-- The result of decorating `listClass`: the direct sequence field got
an empty-list default, the wrapped one got null. -/
def listClassN : ClassState :=
  { fields := [("tags", .nullable (.seq .scalar), some (Value.vlist [])),
               ("extra", .nullable (.seq .scalar), some Value.vnone)]
    isApiDto := true, nullableAdded := true, serializableAdded := true, isDataclass := true }

/-- Scalar audited values (neither a dict, nor a list, nor an object
exposing `to_dict`): the audit ignores these inside sequences. -/
def isScalarA : AValue → Bool
  | .aprim _ => true
  | .anull => true
  | _ => false

/-- A serialized mapping with a field named `password`. -/
def pwData : List (String × AValue) :=
  [("name", .aprim (.str "a")), ("password", .aprim (.str "secret"))]

/-- List elements: a nested DTO with a `password` field, a plain dict
with a `user_id` key, and a scalar. -/
def nestedItems : List AValue :=
  [.adto "Child" [("password", .aprim (.str "x"))],
   .adict [("user_id", .anull)],
   .aprim (.int 3)]

/-- A parent mapping holding `nestedItems` under the key `kids`. -/
def nestedData : List (String × AValue) :=
  [("kids", .alist nestedItems)]

/-- A normalized enum-free schema exercising every shape: scalar,
sequence, mapping and nested DTO, all nullable. -/
def sampleTy : FType :=
  .dto [("name", .nullable .scalar),
        ("tags", .nullable (.seq .scalar)),
        ("meta", .nullable (.mapT .scalar)),
        ("child", .nullable (.dto [("x", .nullable .scalar)]))]

/-- An instance of `sampleTy`. -/
def sampleVal : Value :=
  .obj [("name", .prim (.str "a")),
        ("tags", .vlist [.prim (.int 1), .prim (.int 2)]),
        ("meta", .vdict [("k", .prim (.bool true))]),
        ("child", .obj [("x", .vnone)])]

/-! ## Round-trip statement forms (one per function of the conformance
recursion) -/

/-- Round-trip statement for one value at one declared type. -/
def RT1 (v : Value) (t : FType) : Prop :=
  wellFormed t = true → noEnum t = true → conforms v t = true →
    deserialize t (serialize v) = some v

/-- Round-trip statement for dict entries at a mapping value type. -/
def RT2 (kvs : List (String × Value)) (t : FType) : Prop :=
  wellFormed t = true → noEnum t = true → conformsEntries kvs t = true →
    deserializeKVs t (serializeFields kvs) = some kvs

/-- Round-trip statement for list elements at an element type. -/
def RT3 (vs : List Value) (t : FType) : Prop :=
  wellFormed t = true → noEnum t = true → conformsList vs t = true →
    deserializeList t (serializeList vs) = some vs

/-- Round-trip statement for a DTO's fields at its schema. -/
def RT4 (fs : List (String × Value)) (s : List (String × FType)) : Prop :=
  nodupKeysF s = true → wellFormedFields s = true → noEnumFields s = true →
    conformsFields fs s = true → deserializeFields s (serializeFields fs) = some fs

/-! # Theorems -/

/-! ## Helper lemmas -/

/-- Destructuring `Except.map` at an `ok` result. -/
theorem exceptMap_ok {α β γ : Type} (f : α → β) (x : Except γ α) (b : β)
    (h : Except.map f x = .ok b) : ∃ a, x = .ok a ∧ f a = b := by
  cases x with
  | error e => simp [Except.map] at h
  | ok a => exact ⟨a, rfl, by simpa [Except.map] using h⟩

/-- A first field whose origin is `set` makes normalization fail, and
the error names a set-typed field of the class. -/
theorem normalizeFields_error_of_set (ac : Bool) :
    ∀ fs : List FieldEntry, (∃ e ∈ fs, originIsSet e.2.1 = true) →
      ∃ fname ft fd, normalizeFields ac fs = .error fname ∧
        (fname, ft, fd) ∈ fs ∧ originIsSet ft = true := by
  intro fs
  induction fs with
  | nil => rintro ⟨e, he, -⟩; cases he
  | cons e0 es ih =>
    rintro ⟨e', he', hset⟩
    obtain ⟨n, t, d⟩ := e0
    by_cases h : originIsSet t = true
    · exact ⟨n, t, d, by simp [normalizeFields, normalizeField, h], List.mem_cons_self _ _, h⟩
    · have hmem : e' ∈ es := by
        rcases List.mem_cons.mp he' with rfl | h2
        · exact absurd hset h
        · exact h2
      obtain ⟨fname, ft, fd, herr, hm, hs⟩ := ih ⟨e', hmem, hset⟩
      refine ⟨fname, ft, fd, ?_, List.mem_cons_of_mem _ hm, hs⟩
      simp [normalizeFields, normalizeField, h, herr]

/-- Each input field of a successful normalization has its normalized
form in the output. -/
theorem normalizeFields_mem (ac : Bool) :
    ∀ fs fs' : List FieldEntry, normalizeFields ac fs = .ok fs' →
      ∀ e ∈ fs, ∃ e', normalizeField ac e = .ok e' ∧ e' ∈ fs' := by
  intro fs
  induction fs with
  | nil => intro fs' h e he; cases he
  | cons e0 es ih =>
    intro fs' h e he
    rcases hf : normalizeField ac e0 with msg | e0'
    · rw [normalizeFields, hf] at h; cases h
    · rcases hrest : normalizeFields ac es with msg | es'
      · rw [normalizeFields, hf, hrest] at h; cases h
      · rw [normalizeFields, hf, hrest] at h
        cases h
        rcases List.mem_cons.mp he with rfl | hmem
        · exact ⟨e0', hf, List.mem_cons_self _ _⟩
        · obtain ⟨e', h1, h2⟩ := ih es' hrest e hmem
          exact ⟨e', h1, List.mem_cons_of_mem _ h2⟩

/-- Each output field of a successful normalization is the normalized
form of some input field. -/
theorem normalizeFields_mem_rev (ac : Bool) :
    ∀ fs fs' : List FieldEntry, normalizeFields ac fs = .ok fs' →
      ∀ e' ∈ fs', ∃ e ∈ fs, normalizeField ac e = .ok e' := by
  intro fs
  induction fs with
  | nil => intro fs' h e' he'
           rw [normalizeFields] at h; cases h; cases he'
  | cons e0 es ih =>
    intro fs' h e' he'
    rcases hf : normalizeField ac e0 with msg | e0'
    · rw [normalizeFields, hf] at h; cases h
    · rcases hrest : normalizeFields ac es with msg | es'
      · rw [normalizeFields, hf, hrest] at h; cases h
      · rw [normalizeFields, hf, hrest] at h
        cases h
        rcases List.mem_cons.mp he' with rfl | hmem
        · exact ⟨e0, List.mem_cons_self _ _, hf⟩
        · obtain ⟨e, h1, h2⟩ := ih es' hrest e' hmem
          exact ⟨e, List.mem_cons_of_mem _ h1, h2⟩

/-- The nullable rewrite always yields an optional type. -/
theorem mkOptional_optional (t : FType) : isOptionalTy (mkOptional t) = true := by
  cases t <;> simp [mkOptional, isOptionalTy]

/-- Every field type produced by normalization is optional. -/
theorem normalizeField_optional (ac : Bool) (e e' : FieldEntry)
    (h : normalizeField ac e = .ok e') : isOptionalTy e'.2.1 = true := by
  obtain ⟨n, t, d⟩ := e
  by_cases hs : originIsSet t = true
  · simp [normalizeField, hs] at h
  · have h2 : e' = (n, mkOptional t, some (d.getD (defaultFor ac t))) := by
      simp [normalizeField, hs] at h
      exact h.symm
    rw [h2]
    exact mkOptional_optional t

/-- An optional type is never a bare enumeration class. -/
theorem isOptionalTy_not_enum (t : FType) (h : isOptionalTy t = true) :
    isPlainEnumTy t = false := by
  cases t <;> simp_all [isOptionalTy, isPlainEnumTy]

/-- After normalization no field type is a bare enumeration class, so
the enum type-hook dictionary built by from_dict is empty. -/
theorem enumHookKeys_empty_after_normalize (ac : Bool) (fs fs' : List FieldEntry)
    (h : normalizeFields ac fs = .ok fs') : enumHookKeys fs' = [] := by
  rw [enumHookKeys, List.filter_eq_nil_iff]
  intro t ht
  obtain ⟨e', he', rfl⟩ := List.mem_map.mp ht
  obtain ⟨e, -, hnf⟩ := normalizeFields_mem_rev ac fs fs' h e' he'
  simp [isOptionalTy_not_enum _ (normalizeField_optional ac e e' hnf)]

/-- On a fresh class the decorator performs exactly one normalization
of the field list. -/
theorem api_dto_ok_fields (ser ac : Bool) (c c' : ClassState)
    (h0 : c.isApiDto = false) (h1 : c.nullableAdded = false)
    (h : api_dto true ser ac c = .ok c') :
    normalizeFields ac c.fields = .ok c'.fields := by
  rw [api_dto] at h
  rcases hnf : normalizeFields ac c.fields with msg | fs'
  · cases hdc : c.isDataclass <;> simp [h0, h1, hdc, hnf, Except.map] at h
  · have hfld : c'.fields = fs' := by
      cases hdc : c.isDataclass <;> simp [h0, h1, hdc, hnf, Except.map] at h <;>
        (rw [← h]; try split <;> rfl)
    rw [hfld]

/-- Every class the decorator returns carries the marker. -/
theorem api_dto_marker_after (opt ser ac : Bool) (c c' : ClassState)
    (h : api_dto opt ser ac c = .ok c') : c'.isApiDto = true := by
  rw [api_dto] at h
  split at h
  next hA => cases h; exact hA
  next hA =>
    obtain ⟨c2, -, hf⟩ := exceptMap_ok _ _ _ h
    rw [← hf]

/-! ## C10: initialize unconditionally overwrites the flag and mode -/

/-- C10: every call to the initialization method overwrites the enabled
flag and the log mode with the passed-or-default values; in particular
a call passing only names or suffixes (so using the defaults
`enabled=True`, `log_mode=warn`) re-enables auditing and resets the
mode to warn whatever the previous state was. -/
theorem initConfig_overwrites_flag_and_mode (c : SFConfig)
    (fieldsArg suffixesArg : Option (List String)) (replace : Bool) :
    ((initConfig c true fieldsArg suffixesArg replace .warn).enabled = true ∧
      (initConfig c true fieldsArg suffixesArg replace .warn).logMode = .warn) ∧
    ∀ (e : Bool) (lm : LogMode),
      (initConfig c e fieldsArg suffixesArg replace lm).enabled = e ∧
      (initConfig c e fieldsArg suffixesArg replace lm).logMode = lm :=
  ⟨⟨rfl, rfl⟩, fun _ _ => ⟨rfl, rfl⟩⟩

/-! ## C9: the standalone sensitivity predicate -/

/-- C9 counterexample: the claim requires a case-insensitive exact
match against the sensitive names, so with the default configuration
(enabled, names containing "password") it requires
`is_sensitive_field "Password" = True`; the code compares the value as
given and returns `False`. -/
theorem is_sensitive_field_not_case_insensitive :
    defaultConfig.enabled = true ∧
    lowerStr "Password" = "password" ∧
    defaultConfig.fields.contains "password" = true ∧
    is_sensitive_field defaultConfig "Password" = some false := by
  refine ⟨rfl, by decide, by decide, by decide⟩

/-- C9 (amended): the predicate returns `True` iff the configuration is
enabled and the name as given (case-sensitively) is one of the
sensitive names or ends with one of the sensitive suffixes; it returns
`False` when enabled and no match; and it returns no boolean at all
(Python `None`) when the configuration is disabled. -/
theorem is_sensitive_field_spec (c : SFConfig) (v : String) :
    (is_sensitive_field c v = some true ↔
      c.enabled = true ∧ (v ∈ c.fields ∨ ∃ suf ∈ c.suffixes, endsWithStr v suf = true)) ∧
    (is_sensitive_field c v = none ↔ c.enabled = false) ∧
    (is_sensitive_field c v = some false ↔
      c.enabled = true ∧ ¬(v ∈ c.fields ∨ ∃ suf ∈ c.suffixes, endsWithStr v suf = true)) := by
  obtain ⟨en, lm, fs, sufs⟩ := c
  cases en
  · simp [is_sensitive_field]
  · have hb : (fs.contains v || sufs.any (fun suf => endsWithStr v suf)) = true ↔
        (v ∈ fs ∨ ∃ suf ∈ sufs, endsWithStr v suf = true) := by
      simp [List.elem_iff, List.any_eq_true]
    by_cases h : v ∈ fs ∨ ∃ suf ∈ sufs, endsWithStr v suf = true
    · simp [is_sensitive_field, hb.mpr h, h]
    · have hb2 : (fs.contains v || sufs.any (fun suf => endsWithStr v suf)) = false := by
        rw [← Bool.not_eq_true]
        exact fun hh => h (hb.mp hh)
      simp [is_sensitive_field, hb2, h]

/-! ## C3: rejection of set-typed fields -/

/-- C3 counterexample: the claim says a set inside a nullable wrapper
is also rejected at decoration time; the code only inspects
`get_origin` of the declared type, which for `Optional[set[int]]` is
`Union`, so decoration succeeds and produces a usable class. -/
theorem set_inside_nullable_not_rejected :
    api_dto true true true setClass = .ok setClassN := rfl

/-- C3 (amended): a field whose declared type has origin `set` (a bare
or parameterized set, not one wrapped in `Optional`) makes decoration
of a fresh class fail with an error naming a set-typed field, and no
decorated class is produced.  A set inside a nullable wrapper is not
rejected. -/
theorem api_dto_rejects_direct_set_fields (ser ac : Bool) (c : ClassState)
    (name : String) (t : FType) (d : Option Value)
    (h0 : c.isApiDto = false) (h1 : c.nullableAdded = false)
    (hmem : (name, t, d) ∈ c.fields) (hset : originIsSet t = true) :
    ∃ fname ft fd, api_dto true ser ac c = .error fname ∧
      (fname, ft, fd) ∈ c.fields ∧ originIsSet ft = true := by
  obtain ⟨fname, ft, fd, herr, hm, hs⟩ :=
    normalizeFields_error_of_set ac c.fields ⟨(name, t, d), hmem, hset⟩
  refine ⟨fname, ft, fd, ?_, hm, hs⟩
  cases hdc : c.isDataclass <;> simp [api_dto, h0, h1, hdc, herr, Except.map]

/-- C3 witness: the amended statement applied to a concrete class with
a field declared `items: set[int]`. -/
theorem api_dto_rejects_direct_set_fields_witness :
    (directSetClass.isApiDto = false ∧ directSetClass.nullableAdded = false ∧
      ("items", FType.setT FType.scalar, (none : Option Value)) ∈ directSetClass.fields ∧
      originIsSet (FType.setT FType.scalar) = true) ∧
    ∃ fname ft fd, api_dto true true true directSetClass = .error fname ∧
      (fname, ft, fd) ∈ directSetClass.fields ∧ originIsSet ft = true :=
  ⟨⟨rfl, rfl, by simp [directSetClass], rfl⟩,
    api_dto_rejects_direct_set_fields true true directSetClass "items" (FType.setT FType.scalar)
      none rfl rfl (by simp [directSetClass]) rfl⟩

/-! ## C4: automatic defaults -/

/-- C4 counterexample: the claim keys the default on the underlying
(unwrapped) type, so a field declared `tags: Optional[list[str]]` with
no default should get an empty-sequence default; the code inspects
`get_origin` of the declared type (`Union` for the wrapper) and assigns
`None` instead. -/
theorem nullable_seq_field_defaults_to_null :
    normalizeField true ("tags", .nullable (.seq .scalar), none)
      = .ok ("tags", .nullable (.seq .scalar), some Value.vnone) ∧
    Value.vnone ≠ Value.vlist [] :=
  ⟨rfl, by simp⟩

/-- C4 (amended): for a field with no existing default, decoration of a
fresh class assigns an empty-sequence default when the declared type is
directly a sequence, an empty-mapping default when it is directly a
mapping, and null otherwise — in particular a sequence inside an
explicit nullable wrapper gets null.  A never-set field declared
directly as a sequence therefore holds the empty sequence, which
serializes as an empty sequence, not null. -/
theorem auto_collections_defaults (ser : Bool) (c c' : ClassState)
    (h0 : c.isApiDto = false) (h1 : c.nullableAdded = false)
    (hok : api_dto true ser true c = .ok c') :
    (∀ name t, (name, FType.seq t, (none : Option Value)) ∈ c.fields →
        (name, FType.nullable (FType.seq t), some (Value.vlist [])) ∈ c'.fields) ∧
    (∀ name t, (name, FType.mapT t, (none : Option Value)) ∈ c.fields →
        (name, FType.nullable (FType.mapT t), some (Value.vdict [])) ∈ c'.fields) ∧
    (∀ name u, (name, FType.nullable u, (none : Option Value)) ∈ c.fields →
        (name, FType.nullable u, some Value.vnone) ∈ c'.fields) ∧
    serialize (Value.vlist []) = JValue.jarr [] ∧ JValue.jarr [] ≠ JValue.null := by
  have hnf := api_dto_ok_fields ser true c c' h0 h1 hok
  refine ⟨?_, ?_, ?_, rfl, by simp⟩
  · intro name t hmem
    obtain ⟨e', h1', h2'⟩ := normalizeFields_mem true c.fields c'.fields hnf _ hmem
    have : e' = (name, FType.nullable (FType.seq t), some (Value.vlist [])) := by
      have h3 : normalizeField true (name, FType.seq t, (none : Option Value))
          = .ok (name, FType.nullable (FType.seq t), some (Value.vlist [])) := rfl
      rw [h3] at h1'; cases h1'; rfl
    rwa [this] at h2'
  · intro name t hmem
    obtain ⟨e', h1', h2'⟩ := normalizeFields_mem true c.fields c'.fields hnf _ hmem
    have : e' = (name, FType.nullable (FType.mapT t), some (Value.vdict [])) := by
      have h3 : normalizeField true (name, FType.mapT t, (none : Option Value))
          = .ok (name, FType.nullable (FType.mapT t), some (Value.vdict [])) := rfl
      rw [h3] at h1'; cases h1'; rfl
    rwa [this] at h2'
  · intro name u hmem
    obtain ⟨e', h1', h2'⟩ := normalizeFields_mem true c.fields c'.fields hnf _ hmem
    have : e' = (name, FType.nullable u, some Value.vnone) := by
      have h3 : normalizeField true (name, FType.nullable u, (none : Option Value))
          = .ok (name, FType.nullable u, some Value.vnone) := rfl
      rw [h3] at h1'; cases h1'; rfl
    rwa [this] at h2'

/-- C4 witness: the amended statement applied to `listClass`, whose
fields are `tags: list[str]` and `extra: Optional[list[str]]`, neither
with a default. -/
theorem auto_collections_defaults_witness :
    api_dto true true true listClass = .ok listClassN ∧
    ("tags", FType.nullable (FType.seq FType.scalar), some (Value.vlist [])) ∈ listClassN.fields ∧
    ("extra", FType.nullable (FType.seq FType.scalar), some Value.vnone) ∈ listClassN.fields :=
  ⟨rfl,
    (auto_collections_defaults true listClass listClassN rfl rfl rfl).1 "tags" FType.scalar
      (by simp [listClass]),
    (auto_collections_defaults true listClass listClassN rfl rfl rfl).2.2.1 "extra"
      (FType.seq FType.scalar) (by simp [listClass])⟩

/-! ## C5: idempotence of decoration -/

/-- C5: decoration is idempotent — a class the decorator has produced
carries the marker, so decorating it again returns it unchanged. -/
theorem api_dto_idempotent (opt ser ac : Bool) (c c' : ClassState)
    (h : api_dto opt ser ac c = .ok c') : api_dto opt ser ac c' = .ok c' := by
  have hm := api_dto_marker_after opt ser ac c c' h
  simp [api_dto, hm]

/-- C5 witness: decorating a concrete one-field class twice yields
exactly the result of decorating it once. -/
theorem api_dto_idempotent_witness :
    api_dto true true true demoClass = .ok demoClassN ∧
    api_dto true true true demoClassN = .ok demoClassN :=
  ⟨rfl, api_dto_idempotent true true true demoClass demoClassN rfl⟩

/-! ## C2: enum hooks are never registered for a normalized class -/

/-- C2 (code bug): decorating a class with an enum-typed field rewrites
the declared type to the union `Color | None`, which is not a class, so
the type-hook dictionary from_dict builds is empty and `_enum_hook`
never runs — even though the hook itself would map both the underlying
value `1` and the case-insensitive name "red" to the member `RED`, as
the claim describes. -/
theorem enum_hooks_lost_by_normalization :
    api_dto true true true colorClass = .ok colorClassN ∧
    enumHookKeys colorClass.fields = [FType.enumT [("RED", Prim.int 1)]] ∧
    enumHookKeys colorClassN.fields = [] ∧
    enum_hook [("RED", Prim.int 1)] (JValue.prim (Prim.int 1)) = .ok (some ("RED", Prim.int 1)) ∧
    enum_hook [("RED", Prim.int 1)] (JValue.prim (Prim.str "red"))
      = .ok (some ("RED", Prim.int 1)) := by
  refine ⟨rfl, rfl, rfl, rfl, rfl⟩

/-! ## Audit helper lemmas -/

/-- In warn mode the per-key check never raises. -/
theorem auditKey_warn_ok (c : SFConfig) (hw : c.logMode = .warn) (owner key : String) :
    ∃ ws, auditKey c owner key = .ok ws := by
  by_cases h : sensitiveMatch c key = true <;> simp [auditKey, h, hw]

/-- The audit of an empty mapping. -/
theorem auditEntries_nil (c : SFConfig) (owner : String) :
    auditEntries c owner [] = .ok [] := by
  rw [auditEntries.eq_def]
  split <;> rfl

/-- The audit is a no-op when the configuration is disabled. -/
theorem auditEntries_disabled (c : SFConfig) (owner : String)
    (data : List (String × AValue)) (hen : c.enabled = false) :
    auditEntries c owner data = .ok [] := by
  rw [auditEntries.eq_def]
  simp [hen]

/-- Unfolding of the audit over a non-empty mapping when enabled. -/
theorem auditEntries_cons (c : SFConfig) (owner key : String) (v : AValue)
    (rest : List (String × AValue)) (hen : c.enabled = true) :
    auditEntries c owner ((key, v) :: rest) =
      match auditKey c owner key with
      | .error msg => .error msg
      | .ok w1 =>
        match auditValue c owner v with
        | .error msg => .error msg
        | .ok w2 =>
          match auditEntries c owner rest with
          | .error msg => .error msg
          | .ok w3 => .ok (w1 ++ w2 ++ w3) := by
  conv_lhs => rw [auditEntries]
  simp [hen]

/-- Unfolding of the list audit at a nested-DTO head. -/
theorem auditItems_adto (c : SFConfig) (owner tname : String)
    (payload : List (String × AValue)) (rest : List AValue) :
    auditItems c owner (.adto tname payload :: rest) =
      match auditEntries c tname payload with
      | .error msg => .error msg
      | .ok wInner =>
        match auditEntries c tname payload with
        | .error msg => .error msg
        | .ok wOuter =>
          match auditItems c owner rest with
          | .error msg => .error msg
          | .ok wRest => .ok (wInner ++ wOuter ++ wRest) := by
  conv_lhs => rw [auditItems]

/-- Unfolding of the list audit at a plain-dict head. -/
theorem auditItems_adict (c : SFConfig) (owner : String)
    (entries : List (String × AValue)) (rest : List AValue) :
    auditItems c owner (.adict entries :: rest) =
      match auditEntries c owner entries with
      | .error msg => .error msg
      | .ok w =>
        match auditItems c owner rest with
        | .error msg => .error msg
        | .ok wRest => .ok (w ++ wRest) := by
  conv_lhs => rw [auditItems]

/-- The list audit skips a scalar (primitive) head. -/
theorem auditItems_aprim (c : SFConfig) (owner : String) (p : Prim) (rest : List AValue) :
    auditItems c owner (.aprim p :: rest) = auditItems c owner rest := by
  rw [auditItems]
  all_goals simp

/-- The list audit skips a `None` head. -/
theorem auditItems_anull (c : SFConfig) (owner : String) (rest : List AValue) :
    auditItems c owner (.anull :: rest) = auditItems c owner rest := by
  rw [auditItems]
  all_goals simp

/-- The list audit skips a nested-list head (only dicts and objects
exposing `to_dict` are recursed into). -/
theorem auditItems_alist (c : SFConfig) (owner : String) (ys rest : List AValue) :
    auditItems c owner (.alist ys :: rest) = auditItems c owner rest := by
  rw [auditItems]
  all_goals simp

/-- In warn mode the whole audit never raises (joint statement for the
three mutually recursive functions, by strong induction on size). -/
theorem audit_warn_ok_aux (c : SFConfig) (hw : c.logMode = .warn) :
    ∀ N : Nat,
      (∀ owner data, sizeOf data ≤ N → ∃ ws, auditEntries c owner data = .ok ws) ∧
      (∀ owner v, sizeOf v ≤ N → ∃ ws, auditValue c owner v = .ok ws) ∧
      (∀ owner items, sizeOf items ≤ N → ∃ ws, auditItems c owner items = .ok ws) := by
  intro N
  induction N using Nat.strong_induction_on with
  | _ N ih =>
    refine ⟨?_, ?_, ?_⟩
    · intro owner data hsz
      by_cases hen : c.enabled = true
      · match data with
        | [] => exact ⟨[], auditEntries_nil c owner⟩
        | (key, v) :: rest =>
          obtain ⟨w1, hw1⟩ := auditKey_warn_ok c hw owner key
          have hv : sizeOf v < N := by
            have : sizeOf v < sizeOf ((key, v) :: rest) := by simp <;> omega
            omega
          have hr : sizeOf rest < N := by
            have : sizeOf rest < sizeOf ((key, v) :: rest) := by simp <;> omega
            omega
          obtain ⟨w2, hw2⟩ := (ih (sizeOf v) hv).2.1 owner v le_rfl
          obtain ⟨w3, hw3⟩ := (ih (sizeOf rest) hr).1 owner rest le_rfl
          exact ⟨w1 ++ w2 ++ w3, by rw [auditEntries_cons c owner key v rest hen, hw1, hw2, hw3]⟩
      · exact ⟨[], auditEntries_disabled c owner data (by simpa using hen)⟩
    · intro owner v hsz
      match v with
      | .aprim p => exact ⟨[], by simp [auditValue]⟩
      | .anull => exact ⟨[], by simp [auditValue]⟩
      | .adto tname payload => exact ⟨[], by simp [auditValue]⟩
      | .adict entries =>
        have h1 : sizeOf entries < N := by
          have : sizeOf entries < sizeOf (AValue.adict entries) := by simp <;> omega
          omega
        obtain ⟨ws, hws⟩ := (ih (sizeOf entries) h1).1 owner entries le_rfl
        exact ⟨ws, by simp [auditValue, hws]⟩
      | .alist items =>
        have h1 : sizeOf items < N := by
          have : sizeOf items < sizeOf (AValue.alist items) := by simp <;> omega
          omega
        obtain ⟨ws, hws⟩ := (ih (sizeOf items) h1).2.2 owner items le_rfl
        exact ⟨ws, by simp [auditValue, hws]⟩
    · intro owner items hsz
      match items with
      | [] => exact ⟨[], by simp [auditItems]⟩
      | .adto tname payload :: rest =>
        have h1 : sizeOf payload < N := by
          have : sizeOf payload < sizeOf (AValue.adto tname payload :: rest) := by simp <;> omega
          omega
        have h2 : sizeOf rest < N := by
          have : sizeOf rest < sizeOf (AValue.adto tname payload :: rest) := by simp <;> omega
          omega
        obtain ⟨wI, hwI⟩ := (ih (sizeOf payload) h1).1 tname payload le_rfl
        obtain ⟨wR, hwR⟩ := (ih (sizeOf rest) h2).2.2 owner rest le_rfl
        exact ⟨wI ++ wI ++ wR, by rw [auditItems_adto, hwI, hwR]⟩
      | .adict entries :: rest =>
        have h1 : sizeOf entries < N := by
          have : sizeOf entries < sizeOf (AValue.adict entries :: rest) := by simp <;> omega
          omega
        have h2 : sizeOf rest < N := by
          have : sizeOf rest < sizeOf (AValue.adict entries :: rest) := by simp <;> omega
          omega
        obtain ⟨w, hwE⟩ := (ih (sizeOf entries) h1).1 owner entries le_rfl
        obtain ⟨wR, hwR⟩ := (ih (sizeOf rest) h2).2.2 owner rest le_rfl
        exact ⟨w ++ wR, by rw [auditItems_adict, hwE, hwR]⟩
      | .aprim p :: rest =>
        have h2 : sizeOf rest < N := by
          have : sizeOf rest < sizeOf (AValue.aprim p :: rest) := by simp <;> omega
          omega
        obtain ⟨wR, hwR⟩ := (ih (sizeOf rest) h2).2.2 owner rest le_rfl
        exact ⟨wR, by rw [auditItems_aprim]; exact hwR⟩
      | .anull :: rest =>
        have h2 : sizeOf rest < N := by
          have : sizeOf rest < sizeOf (AValue.anull :: rest) := by simp <;> omega
          omega
        obtain ⟨wR, hwR⟩ := (ih (sizeOf rest) h2).2.2 owner rest le_rfl
        exact ⟨wR, by rw [auditItems_anull]; exact hwR⟩
      | .alist ys :: rest =>
        have h2 : sizeOf rest < N := by
          have : sizeOf rest < sizeOf (AValue.alist ys :: rest) := by simp <;> omega
          omega
        obtain ⟨wR, hwR⟩ := (ih (sizeOf rest) h2).2.2 owner rest le_rfl
        exact ⟨wR, by rw [auditItems_alist]; exact hwR⟩

/-- In warn mode the mapping audit never raises. -/
theorem auditEntries_warn_ok (c : SFConfig) (hw : c.logMode = .warn) (owner : String)
    (data : List (String × AValue)) : ∃ ws, auditEntries c owner data = .ok ws :=
  (audit_warn_ok_aux c hw (sizeOf data)).1 owner data le_rfl

/-- In warn mode the list audit never raises. -/
theorem auditItems_warn_ok (c : SFConfig) (hw : c.logMode = .warn) (owner : String)
    (items : List AValue) : ∃ ws, auditItems c owner items = .ok ws :=
  (audit_warn_ok_aux c hw (sizeOf items)).2.2 owner items le_rfl

/-- In warn mode (and enabled), every sensitive top-level key of the
audited mapping contributes its `owner.key` warning. -/
theorem auditEntries_warn_mem (c : SFConfig) (hen : c.enabled = true)
    (hw : c.logMode = .warn) (owner : String) :
    ∀ (data : List (String × AValue)) (ws : List String),
      auditEntries c owner data = .ok ws →
      ∀ k v, (k, v) ∈ data → sensitiveMatch c k = true → (owner ++ "." ++ k) ∈ ws := by
  intro data
  induction data with
  | nil => intro ws h k v hm; cases hm
  | cons e rest ih =>
    obtain ⟨key, v0⟩ := e
    intro ws h k v hm hsens
    rw [auditEntries_cons c owner key v0 rest hen] at h
    rcases hk : auditKey c owner key with msg | w1 <;> rw [hk] at h
    · cases h
    rcases hv : auditValue c owner v0 with msg | w2 <;> rw [hv] at h
    · cases h
    rcases hr : auditEntries c owner rest with msg | w3 <;> rw [hr] at h
    · cases h
    cases h
    rcases List.mem_cons.mp hm with heq | hmem
    · obtain ⟨rfl, rfl⟩ := Prod.mk.injEq .. ▸ heq
      have : auditKey c owner k = .ok [owner ++ "." ++ k] := by
        simp [auditKey, hsens, hw]
      rw [this] at hk
      cases hk
      simp
    · have := ih w3 hr k v hmem hsens
      simp [this]

/-- The warnings of the audit of a list stored under some key are among
the warnings of the audit of the enclosing mapping. -/
theorem auditEntries_sub_items (c : SFConfig) (hen : c.enabled = true) (owner : String) :
    ∀ (data : List (String × AValue)) (ws : List String),
      auditEntries c owner data = .ok ws →
      ∀ pk items, (pk, AValue.alist items) ∈ data →
        ∀ wsI, auditItems c owner items = .ok wsI → wsI ⊆ ws := by
  intro data
  induction data with
  | nil => intro ws h pk items hm; cases hm
  | cons e rest ih =>
    obtain ⟨key, v0⟩ := e
    intro ws h pk items hm wsI hI
    rw [auditEntries_cons c owner key v0 rest hen] at h
    rcases hk : auditKey c owner key with msg | w1 <;> rw [hk] at h
    · cases h
    rcases hv : auditValue c owner v0 with msg | w2 <;> rw [hv] at h
    · cases h
    rcases hr : auditEntries c owner rest with msg | w3 <;> rw [hr] at h
    · cases h
    cases h
    rcases List.mem_cons.mp hm with heq | hmem
    · obtain ⟨rfl, rfl⟩ := Prod.mk.injEq .. ▸ heq
      have hv2 : auditValue c owner (AValue.alist items) = auditItems c owner items := by
        simp [auditValue]
      rw [hv2, hI] at hv
      cases hv
      intro x hx
      simp [hx]
    · have hsub := ih w3 hr pk items hmem wsI hI
      intro x hx
      have := hsub hx
      simp [this]

/-- The warnings of the audit of a nested-DTO list element (under its
own type name) are among the warnings of the audit of the list. -/
theorem auditItems_sub_dto (c : SFConfig) (owner : String) :
    ∀ (items : List AValue) (ws : List String),
      auditItems c owner items = .ok ws →
      ∀ tname payload, AValue.adto tname payload ∈ items →
        ∀ wsP, auditEntries c tname payload = .ok wsP → wsP ⊆ ws := by
  intro items
  induction items with
  | nil => intro ws h tname payload hm; cases hm
  | cons x rest ih =>
    intro ws h tname payload hm wsP hP
    match x, h, hm with
    | .adto t p, h, hm =>
      rw [auditItems_adto] at h
      rcases hI : auditEntries c t p with msg | wI <;> rw [hI] at h
      · cases h
      rcases hR : auditItems c owner rest with msg | wR <;> rw [hR] at h
      · cases h
      cases h
      rcases List.mem_cons.mp hm with heq | hmem
      · obtain ⟨rfl, rfl⟩ : t = tname ∧ p = payload := by
          injection heq with h1 h2; exact ⟨h1.symm, h2.symm⟩
        rw [hP] at hI
        cases hI
        intro y hy
        simp [hy]
      · have hsub := ih wR hR tname payload hmem wsP hP
        intro y hy
        have := hsub hy
        simp [this]
    | .adict en, h, hm =>
      rw [auditItems_adict] at h
      rcases hE : auditEntries c owner en with msg | wE <;> rw [hE] at h
      · cases h
      rcases hR : auditItems c owner rest with msg | wR <;> rw [hR] at h
      · cases h
      cases h
      have hmem : AValue.adto tname payload ∈ rest := by
        rcases List.mem_cons.mp hm with heq | hmem
        · cases heq
        · exact hmem
      have hsub := ih wR hR tname payload hmem wsP hP
      intro y hy
      have := hsub hy
      simp [this]
    | .aprim p0, h, hm =>
      rw [auditItems_aprim] at h
      have hmem : AValue.adto tname payload ∈ rest := by
        rcases List.mem_cons.mp hm with heq | hmem
        · cases heq
        · exact hmem
      exact ih ws h tname payload hmem wsP hP
    | .anull, h, hm =>
      rw [auditItems_anull] at h
      have hmem : AValue.adto tname payload ∈ rest := by
        rcases List.mem_cons.mp hm with heq | hmem
        · cases heq
        · exact hmem
      exact ih ws h tname payload hmem wsP hP
    | .alist ys, h, hm =>
      rw [auditItems_alist] at h
      have hmem : AValue.adto tname payload ∈ rest := by
        rcases List.mem_cons.mp hm with heq | hmem
        · cases heq
        · exact hmem
      exact ih ws h tname payload hmem wsP hP

/-- The warnings of the audit of a plain-dict list element (under the
enclosing owner label) are among the warnings of the audit of the
list. -/
theorem auditItems_sub_dict (c : SFConfig) (owner : String) :
    ∀ (items : List AValue) (ws : List String),
      auditItems c owner items = .ok ws →
      ∀ entries, AValue.adict entries ∈ items →
        ∀ wsE, auditEntries c owner entries = .ok wsE → wsE ⊆ ws := by
  intro items
  induction items with
  | nil => intro ws h entries hm; cases hm
  | cons x rest ih =>
    intro ws h entries hm wsE hE
    match x, h, hm with
    | .adict en, h, hm =>
      rw [auditItems_adict] at h
      rcases hE2 : auditEntries c owner en with msg | wE <;> rw [hE2] at h
      · cases h
      rcases hR : auditItems c owner rest with msg | wR <;> rw [hR] at h
      · cases h
      cases h
      rcases List.mem_cons.mp hm with heq | hmem
      · obtain rfl : en = entries := by injection heq with h1; exact h1.symm
        rw [hE] at hE2
        cases hE2
        intro y hy
        simp [hy]
      · have hsub := ih wR hR entries hmem wsE hE
        intro y hy
        have := hsub hy
        simp [this]
    | .adto t p, h, hm =>
      rw [auditItems_adto] at h
      rcases hI : auditEntries c t p with msg | wI <;> rw [hI] at h
      · cases h
      rcases hR : auditItems c owner rest with msg | wR <;> rw [hR] at h
      · cases h
      cases h
      have hmem : AValue.adict entries ∈ rest := by
        rcases List.mem_cons.mp hm with heq | hmem
        · cases heq
        · exact hmem
      have hsub := ih wR hR entries hmem wsE hE
      intro y hy
      have := hsub hy
      simp [this]
    | .aprim p0, h, hm =>
      rw [auditItems_aprim] at h
      have hmem : AValue.adict entries ∈ rest := by
        rcases List.mem_cons.mp hm with heq | hmem
        · cases heq
        · exact hmem
      exact ih ws h entries hmem wsE hE
    | .anull, h, hm =>
      rw [auditItems_anull] at h
      have hmem : AValue.adict entries ∈ rest := by
        rcases List.mem_cons.mp hm with heq | hmem
        · cases heq
        · exact hmem
      exact ih ws h entries hmem wsE hE
    | .alist ys, h, hm =>
      rw [auditItems_alist] at h
      have hmem : AValue.adict entries ∈ rest := by
        rcases List.mem_cons.mp hm with heq | hmem
        · cases heq
        · exact hmem
      exact ih ws h entries hmem wsE hE

/-- The list audit ignores scalar elements entirely: a list of scalars
audits to no warnings and no error, in any mode. -/
theorem auditItems_scalars (c : SFConfig) (owner : String) :
    ∀ items : List AValue, (∀ x ∈ items, isScalarA x = true) →
      auditItems c owner items = .ok [] := by
  intro items
  induction items with
  | nil => intro h; simp [auditItems]
  | cons x rest ih =>
    intro h
    have hx := h x (List.mem_cons_self _ _)
    have hrest := ih (fun y hy => h y (List.mem_cons_of_mem _ hy))
    match x, hx with
    | .aprim p, _ =>
      rw [auditItems_aprim]
      exact hrest
    | .anull, _ =>
      rw [auditItems_anull]
      exact hrest
    | .adict en, hx => simp [isScalarA] at hx
    | .alist ys, hx => simp [isScalarA] at hx
    | .adto t p, hx => simp [isScalarA] at hx

/-- In strict mode (and enabled), a mapping with a sensitive key fails
the audit. -/
theorem auditEntries_strict_error (c : SFConfig) (hen : c.enabled = true)
    (hst : c.logMode = .strict) (owner : String) :
    ∀ data : List (String × AValue),
      (∃ k v, (k, v) ∈ data ∧ sensitiveMatch c k = true) →
      ∃ msg, auditEntries c owner data = .error msg := by
  intro data
  induction data with
  | nil => rintro ⟨k, v, hm, -⟩; cases hm
  | cons e rest ih =>
    obtain ⟨key, v0⟩ := e
    rintro ⟨k, v, hm, hsens⟩
    by_cases hks : sensitiveMatch c key = true
    · refine ⟨owner ++ "." ++ key, ?_⟩
      rw [auditEntries_cons c owner key v0 rest hen]
      simp [auditKey, hks, hst]
    · rcases hv : auditValue c owner v0 with msg | w2
      · refine ⟨msg, ?_⟩
        rw [auditEntries_cons c owner key v0 rest hen]
        simp [auditKey, hks, hv]
      · have hmem : (k, v) ∈ rest := by
          rcases List.mem_cons.mp hm with heq | hmem
          · obtain ⟨rfl, rfl⟩ := Prod.mk.injEq .. ▸ heq
            exact absurd hsens hks
          · exact hmem
        obtain ⟨msg, hmsg⟩ := ih ⟨k, v, hmem, hsens⟩
        refine ⟨msg, ?_⟩
        rw [auditEntries_cons c owner key v0 rest hen]
        simp [auditKey, hks, hv, hmsg]

/-! ## C6: warn mode logs and still returns the full mapping -/

/-- C6: with auditing enabled in warn mode, serializing a mapping with
a sensitive key raises nothing and returns the complete mapping
unchanged, and the audit logged a warning naming `owner.key`. -/
theorem to_dict_warn_logs_and_returns (c : SFConfig) (owner k : String) (v : AValue)
    (data : List (String × AValue))
    (hen : c.enabled = true) (hw : c.logMode = .warn)
    (hmem : (k, v) ∈ data) (hs : sensitiveMatch c k = true) :
    ∃ ws, to_dict c owner data = .ok (ws, data) ∧ (owner ++ "." ++ k) ∈ ws := by
  obtain ⟨ws, hws⟩ := auditEntries_warn_ok c hw owner data
  exact ⟨ws, by simp [to_dict, hws, Except.map],
    auditEntries_warn_mem c hen hw owner data ws hws k v hmem hs⟩

/-- C6 witness: the default configuration (enabled, warn) serializing a
mapping with a `password` field. -/
theorem to_dict_warn_logs_and_returns_witness :
    (defaultConfig.enabled = true ∧ defaultConfig.logMode = .warn ∧
      ("password", AValue.aprim (Prim.str "secret")) ∈ pwData ∧
      sensitiveMatch defaultConfig "password" = true) ∧
    ∃ ws, to_dict defaultConfig "User" pwData = .ok (ws, pwData) ∧
      ("User" ++ "." ++ "password") ∈ ws :=
  ⟨⟨rfl, rfl, by simp [pwData], by decide⟩,
    to_dict_warn_logs_and_returns defaultConfig "User" "password"
      (AValue.aprim (Prim.str "secret")) pwData rfl rfl (by simp [pwData]) (by decide)⟩

/-! ## C7: strict mode aborts serialization -/

/-- C7: with auditing enabled in strict mode, serializing a mapping
with a sensitive key raises and produces no mapping; when the sensitive
key is the first one, the raised error names exactly `owner.key`. -/
theorem to_dict_strict_raises (c : SFConfig) (owner k : String) (v : AValue)
    (data rest : List (String × AValue))
    (hen : c.enabled = true) (hst : c.logMode = .strict)
    (hmem : (k, v) ∈ data) (hs : sensitiveMatch c k = true) :
    (∃ msg, to_dict c owner data = .error msg) ∧
    to_dict c owner ((k, v) :: rest) = .error (owner ++ "." ++ k) := by
  constructor
  · obtain ⟨msg, hmsg⟩ := auditEntries_strict_error c hen hst owner data ⟨k, v, hmem, hs⟩
    exact ⟨msg, by simp [to_dict, hmsg, Except.map]⟩
  · have : auditEntries c owner ((k, v) :: rest) = .error (owner ++ "." ++ k) := by
      rw [auditEntries_cons c owner k v rest hen]
      simp [auditKey, hs, hst]
    simp [to_dict, this, Except.map]

/-- C7 witness: the strict configuration serializing the same mapping
with a `password` field. -/
theorem to_dict_strict_raises_witness :
    (strictConfig.enabled = true ∧ strictConfig.logMode = .strict ∧
      ("password", AValue.aprim (Prim.str "secret")) ∈ pwData ∧
      sensitiveMatch strictConfig "password" = true) ∧
    ((∃ msg, to_dict strictConfig "User" pwData = .error msg) ∧
      to_dict strictConfig "User"
          [("password", AValue.aprim (Prim.str "secret"))]
        = .error ("User" ++ "." ++ "password")) :=
  ⟨⟨rfl, rfl, by simp [pwData], by decide⟩,
    to_dict_strict_raises strictConfig "User" "password" (AValue.aprim (Prim.str "secret"))
      pwData [] rfl rfl (by simp [pwData]) (by decide)⟩

/-! ## C8: the audit recursion reaches list elements -/

/-- C8: with auditing enabled in warn mode, during the parent's
serialization a sensitive key inside a nested-DTO element of a listed
sequence is flagged under the element's own type name, a sensitive key
inside a plain-dict element is flagged under the parent's owner label,
and scalar elements of sequences are never audited (in any mode a list
of scalars audits to nothing). -/
theorem to_dict_audits_nested_elements (c : SFConfig) (owner pk : String)
    (data : List (String × AValue)) (items : List AValue)
    (hen : c.enabled = true) (hw : c.logMode = .warn)
    (hitems : (pk, AValue.alist items) ∈ data) :
    (∀ tname payload k v, AValue.adto tname payload ∈ items →
        (k, v) ∈ payload → sensitiveMatch c k = true →
        ∃ ws, to_dict c owner data = .ok (ws, data) ∧ (tname ++ "." ++ k) ∈ ws) ∧
    (∀ entries k v, AValue.adict entries ∈ items →
        (k, v) ∈ entries → sensitiveMatch c k = true →
        ∃ ws, to_dict c owner data = .ok (ws, data) ∧ (owner ++ "." ++ k) ∈ ws) ∧
    (∀ scalars : List AValue, (∀ x ∈ scalars, isScalarA x = true) →
        auditItems c owner scalars = .ok []) := by
  obtain ⟨ws, hws⟩ := auditEntries_warn_ok c hw owner data
  obtain ⟨wsI, hwsI⟩ := auditItems_warn_ok c hw owner items
  have hIsub : wsI ⊆ ws := auditEntries_sub_items c hen owner data ws hws pk items hitems wsI hwsI
  refine ⟨?_, ?_, auditItems_scalars c owner⟩
  · intro tname payload k v hdto hkv hsens
    obtain ⟨wsP, hwsP⟩ := auditEntries_warn_ok c hw tname payload
    have h1 : (tname ++ "." ++ k) ∈ wsP :=
      auditEntries_warn_mem c hen hw tname payload wsP hwsP k v hkv hsens
    have h2 : wsP ⊆ wsI := auditItems_sub_dto c owner items wsI hwsI tname payload hdto wsP hwsP
    exact ⟨ws, by simp [to_dict, hws, Except.map], hIsub (h2 h1)⟩
  · intro entries k v hdict hkv hsens
    obtain ⟨wsE, hwsE⟩ := auditEntries_warn_ok c hw owner entries
    have h1 : (owner ++ "." ++ k) ∈ wsE :=
      auditEntries_warn_mem c hen hw owner entries wsE hwsE k v hkv hsens
    have h2 : wsE ⊆ wsI := auditItems_sub_dict c owner items wsI hwsI entries hdict wsE hwsE
    exact ⟨ws, by simp [to_dict, hws, Except.map], hIsub (h2 h1)⟩

/-- C8 witness: a parent mapping holding a list with a nested DTO
(`Child` with a `password` field), a plain dict (with a `user_id` key)
and a scalar, audited under the default configuration. -/
theorem to_dict_audits_nested_elements_witness :
    (defaultConfig.enabled = true ∧ defaultConfig.logMode = .warn ∧
      ("kids", AValue.alist nestedItems) ∈ nestedData ∧
      AValue.adto "Child" [("password", AValue.aprim (Prim.str "x"))] ∈ nestedItems ∧
      AValue.adict [("user_id", AValue.anull)] ∈ nestedItems ∧
      sensitiveMatch defaultConfig "password" = true ∧
      sensitiveMatch defaultConfig "user_id" = true) ∧
    (∃ ws, to_dict defaultConfig "Parent" nestedData = .ok (ws, nestedData) ∧
      ("Child" ++ "." ++ "password") ∈ ws) ∧
    (∃ ws, to_dict defaultConfig "Parent" nestedData = .ok (ws, nestedData) ∧
      ("Parent" ++ "." ++ "user_id") ∈ ws) ∧
    auditItems defaultConfig "Parent" [AValue.aprim (Prim.int 3), AValue.anull] = .ok [] :=
  ⟨⟨rfl, rfl, by simp [nestedData], by simp [nestedItems], by simp [nestedItems],
      by decide, by decide⟩,
    (to_dict_audits_nested_elements defaultConfig "Parent" "kids" nestedData nestedItems
        rfl rfl (by simp [nestedData])).1 "Child" [("password", AValue.aprim (Prim.str "x"))]
      "password" (AValue.aprim (Prim.str "x")) (by simp [nestedItems]) (by simp) (by decide),
    (to_dict_audits_nested_elements defaultConfig "Parent" "kids" nestedData nestedItems
        rfl rfl (by simp [nestedData])).2.1 [("user_id", AValue.anull)] "user_id" AValue.anull
      (by simp [nestedItems]) (by simp) (by decide),
    (to_dict_audits_nested_elements defaultConfig "Parent" "kids" nestedData nestedItems
        rfl rfl (by simp [nestedData])).2.2 [AValue.aprim (Prim.int 3), AValue.anull]
      (by decide)⟩

/-! ## Round-trip helper lemmas -/

/-- Only `None` serializes to null. -/
theorem serialize_eq_null (v : Value) (h : serialize v = JValue.null) : v = Value.vnone := by
  cases v <;> simp [serialize] at h ⊢

/-- Conformance to a nullable type of a non-`None` value is conformance
to the wrapped type. -/
theorem conforms_nullable (v : Value) (t : FType) (h : v ≠ Value.vnone) :
    conforms v (.nullable t) = conforms v t := by
  cases v with
  | vnone => exact absurd rfl h
  | prim p => simp [conforms]
  | obj fs => simp [conforms]
  | vlist vs => simp [conforms]
  | vdict kvs => simp [conforms]

/-- Reconstruction at a nullable type of a non-null value is
reconstruction at the wrapped type. -/
theorem deserialize_nullable_notnull (t : FType) (j : JValue) (h : j ≠ JValue.null) :
    deserialize (.nullable t) j = deserialize t j := by
  cases j with
  | null => exact absurd rfl h
  | prim p => simp [deserialize]
  | jobj kvs => simp [deserialize]
  | jarr vs => simp [deserialize]

/-- Field reconstruction ignores a leading mapping entry whose key
belongs to none of the schema fields. -/
theorem deserializeFields_skip (m : String) (j : JValue) :
    ∀ (s : List (String × FType)) (kvs : List (String × JValue)),
      m ∉ s.map Prod.fst →
      deserializeFields s ((m, j) :: kvs) = deserializeFields s kvs := by
  intro s
  induction s with
  | nil => intro kvs h; simp [deserializeFields]
  | cons e s' ih =>
    obtain ⟨n, t⟩ := e
    intro kvs h
    have hmn : ¬(m = n) := by
      intro hh
      exact h (by simp [hh])
    have h' : m ∉ s'.map Prod.fst := by
      intro hh
      exact h (by simp [hh])
    simp only [deserializeFields]
    rw [lookupKey, if_neg hmn, ih kvs h']

/-- The round-trip statement holds everywhere, by the joint functional
induction of the conformance recursion. -/
theorem rt1_all : ∀ (v : Value) (t : FType), RT1 v t := by
  refine conforms.induct RT1 RT2 RT3 RT4 ?_ ?_ ?_ ?_ ?_ ?_ ?_ ?_ ?_ ?_ ?_ ?_ ?_ ?_
  · -- None at a nullable type
    intro t
    intro _ _ _
    simp [RT1, serialize, deserialize]
  · -- a non-None value at a nullable type
    intro v t hvn ih
    intro hwf hne hconf
    have hv : v ≠ Value.vnone := fun hh => hvn hh
    simp only [wellFormed] at hwf
    simp only [noEnum] at hne
    rw [conforms_nullable v t hv] at hconf
    have hs : serialize v ≠ JValue.null := fun hh => hv (serialize_eq_null v hh)
    rw [deserialize_nullable_notnull t (serialize v) hs]
    exact ih hwf hne hconf
  · -- a primitive at the scalar type
    intro p
    intro _ _ _
    simp [serialize, deserialize]
  · -- an instance at a DTO type
    intro fs s ih
    intro hwf hne hconf
    simp only [wellFormed, Bool.and_eq_true] at hwf
    simp only [noEnum] at hne
    simp only [conforms] at hconf
    have h := ih hwf.1 hwf.2 hne hconf
    simp [serialize, deserialize, h]
  · -- a list at a sequence type
    intro vs t ih
    intro hwf hne hconf
    simp only [wellFormed] at hwf
    simp only [noEnum] at hne
    simp only [conforms] at hconf
    have h := ih hwf hne hconf
    simp [serialize, deserialize, h]
  · -- a dict at a mapping type
    intro kvs t ih
    intro hwf hne hconf
    simp only [wellFormed] at hwf
    simp only [noEnum] at hne
    simp only [conforms] at hconf
    have h := ih hwf hne hconf
    simp [serialize, deserialize, h]
  · -- value and type of mismatched shapes: conformance is false
    intro x x1 h1 h2 h3 h4 h5 h6
    intro hwf hne hconf
    exfalso
    rw [conforms.eq_def] at hconf
    split at hconf
    all_goals first
      | (exact h1 _ rfl rfl)
      | (exact h2 _ rfl)
      | (exact h3 _ rfl rfl)
      | (exact h4 _ _ rfl rfl)
      | (exact h5 _ _ rfl rfl)
      | (exact h6 _ _ rfl rfl)
      | simp at hconf
  · -- empty dict at any value type
    intro t
    intro _ _ _
    simp [serializeFields, deserializeKVs]
  · -- dict entry
    intro n v kvs t ih1 ih2
    intro hwf hne hconf
    simp only [conformsEntries, Bool.and_eq_true] at hconf
    have h1 := ih1 hwf hne hconf.1
    have h2 := ih2 hwf hne hconf.2
    simp [serializeFields, deserializeKVs, h1, h2]
  · -- empty list at any element type
    intro t
    intro _ _ _
    simp [serializeList, deserializeList]
  · -- list element
    intro v vs t ih1 ih2
    intro hwf hne hconf
    simp only [conformsList, Bool.and_eq_true] at hconf
    have h1 := ih1 hwf hne hconf.1
    have h2 := ih2 hwf hne hconf.2
    simp [serializeList, deserializeList, h1, h2]
  · -- empty field list at the empty schema
    intro _ _ _ _
    simp [serializeFields, deserializeFields]
  · -- field entry
    intro n v fs m t s ih1 ih4
    intro hnd hwff hnef hconf
    simp only [conformsFields, Bool.and_eq_true, beq_iff_eq] at hconf
    obtain ⟨⟨rfl, hcv⟩, hcfs⟩ := hconf
    simp only [nodupKeysF, Bool.and_eq_true, Bool.not_eq_true'] at hnd
    simp only [wellFormedFields, Bool.and_eq_true] at hwff
    simp only [noEnumFields, Bool.and_eq_true] at hnef
    have hmem : n ∉ s.map Prod.fst := by
      intro hm
      have hc2 : (s.map Prod.fst).contains n = true := List.elem_iff.mpr hm
      rw [hnd.1] at hc2
      cases hc2
    have h1 := ih1 hwff.1 hnef.1 hcv
    have h2 := ih4 hnd.2 hwff.2 hnef.2 hcfs
    have hlk : lookupKey n ((n, serialize v) :: serializeFields fs) = some (serialize v) := by
      rw [lookupKey, if_pos rfl]
    simp only [serializeFields, deserializeFields]
    simp [hlk, h1, deserializeFields_skip n (serialize v) s (serializeFields fs) hmem, h2]
  · -- field list and schema of different shapes: conformance is false
    intro x x1 h1 h2
    intro hnd hwf hne hconf
    exfalso
    rw [conformsFields.eq_def] at hconf
    split at hconf
    all_goals first
      | (exact h1 rfl rfl)
      | (exact h2 _ _ _ _ _ _ rfl rfl)
      | simp at hconf

/-! ## C1: serialization round-trip for enum-free schemas -/

/-- C1: for every instance of a well-formed declared type with no
enumeration types anywhere in it, structural reconstruction of the
serialized mapping yields back exactly the instance:
`from_dict(to_dict(i)) == i`.  (The warn-mode audit run by `to_dict`
returns the mapping unchanged — see the C6 theorem — so it is elided
here.) -/
theorem from_dict_to_dict_roundtrip (v : Value) (t : FType)
    (hwf : wellFormed t = true) (hne : noEnum t = true) (hc : conforms v t = true) :
    deserialize t (serialize v) = some v :=
  rt1_all v t hwf hne hc

/-- C1 witness: a concrete normalized schema with scalar, list, dict
and nested-DTO fields, and a concrete instance of it. -/
theorem from_dict_to_dict_roundtrip_witness :
    (wellFormed sampleTy = true ∧ noEnum sampleTy = true ∧
      conforms sampleVal sampleTy = true) ∧
    deserialize sampleTy (serialize sampleVal) = some sampleVal :=
  ⟨⟨by simp [sampleTy, wellFormed, wellFormedFields, nodupKeysF],
    by simp [sampleTy, noEnum, noEnumFields],
    by simp [sampleTy, sampleVal, conforms, conformsFields, conformsList, conformsEntries]⟩,
    from_dict_to_dict_roundtrip sampleVal sampleTy
      (by simp [sampleTy, wellFormed, wellFormedFields, nodupKeysF])
      (by simp [sampleTy, noEnum, noEnumFields])
      (by simp [sampleTy, sampleVal, conforms, conformsFields, conformsList, conformsEntries])⟩

end ApiDto
